import Mathlib

/-!
Verification development for the crossword CSP solver (`generate.py`,
class `CrosswordCreator`).

The solver is shallowly embedded as pure Lean functions.  Python sets and
dicts are modelled as lists of elements / key-value pairs: iteration order
of a Python set is implementation defined, so a list order stands in for
one concrete realizable order; dict keys are unique by construction on
every path the solver takes.  Python exceptions (UnboundLocalError in
`select_unassigned_variable`, TypeError in `revise` when the overlap
lookup yields None) are modelled as an explicit `crash` outcome, and the
unbounded recursion / worklist loops take a fuel parameter, with a
distinct `fuelOut` outcome for exhaustion.
-/

namespace CW

/-- A candidate word, as its list of characters. -/
abbrev Word := List Char

/-- Modelled from the spec: the `Puzzle` collaborator (`crossword.py` is not
part of the analysed source).  It exposes the set of variables, each
variable's length, the initial candidate word list, and the pairwise
overlap lookup `(Variable, Variable) → optional index pair`.  Variables are
an abstract type with decidable equality (the spec identifies a variable by
row, column and direction; any such concrete type works). -/
structure Puzzle (V : Type) where
  vars : List V
  length : V → Nat
  words : List Word
  overlaps : V → V → Option (Nat × Nat)

/-- Modelled from the spec: the neighbor lookup, `Variable → set of
Variables sharing a cell`, i.e. the variables with a defined overlap. -/
def neighborsOf {V : Type} [DecidableEq V] (p : Puzzle V) (v : V) : List V :=
  p.vars.filter (fun u => decide (u ≠ v) && (p.overlaps v u).isSome)

/-- Character of a word at an index.  The solver only indexes words at
overlap positions of a well-formed puzzle, which are within both words
after node consistency, so a default character for the out-of-range case
never matters on any path the solver takes. -/
def charAt (w : Word) (i : Nat) : Char :=
  w.getD i ' '

/-- The mutable domain store `self.domains`: a mapping from variables to
their current candidate lists. -/
abbrev Domains (V : Type) := List (V × List Word)

/-- A (partial) assignment: a mapping from variables to words. -/
abbrev Assignment (V : Type) := List (V × Word)

/-- Dictionary lookup in the domain store (absent keys never occur on the
solver's paths; they give the empty list here). -/
def domGet {V : Type} [DecidableEq V] : Domains V → V → List Word
  | [], _ => []
  | e :: d, v => if e.1 = v then e.2 else domGet d v

/-- Dictionary update `self.domains[v] = l` (updates the existing key). -/
def domSet {V : Type} [DecidableEq V] : Domains V → V → List Word → Domains V
  | [], _, _ => []
  | e :: d, v, l => (if e.1 = v then (e.1, l) else e) :: domSet d v l

/-- Dictionary lookup in an assignment. -/
def lookupA {V : Type} [DecidableEq V] : Assignment V → V → Option Word
  | [], _ => none
  | e :: a, v => if e.1 = v then some e.2 else lookupA a v

/-- The keys of an assignment (`set(assignment)`). -/
def keysOf {V : Type} : Assignment V → List V :=
  fun a => a.map (fun e => e.1)

/-- `assignment.pop(var)`: remove the entry for a key. -/
def eraseKey {V : Type} [DecidableEq V] (v : V) : Assignment V → Assignment V
  | [] => []
  | e :: a => if e.1 = v then eraseKey v a else e :: eraseKey v a

/-- Outcome of running an embedded stateful operation: a value, a Python
exception, or fuel exhaustion (a model artifact: the Python loops simply
keep running). -/
inductive Res (α : Type) where
  | ok (a : α)
  | crash
  | fuelOut
  deriving DecidableEq, Repr

/-- The `__init__` domain store: every variable maps to a copy of the word
list. -/
def initialDomains {V : Type} (p : Puzzle V) : Domains V :=
  p.vars.map (fun v => (v, p.words))

/-- `enforce_node_consistency`: remove from each variable's domain every
word whose length differs from the variable's length. -/
def enforceNodeConsistency {V : Type} (p : Puzzle V) (dom : Domains V) : Domains V :=
  dom.map (fun e => (e.1, e.2.filter (fun w => decide (w.length = p.length e.1))))

/-- Support test from `revise`'s inner loop: some word of `ys` agrees with
`xv` at the overlap indices `(i, j)`. -/
def hasSupport (i j : Nat) (xv : Word) (ys : List Word) : Bool :=
  ys.any (fun yv => charAt xv i == charAt yv j)

/-- The net content of `domains[x]` after `revise`'s loop: exactly the
candidates with a supporting candidate in `domains[y]` survive (each is
removed and re-added on finding support). -/
def reviseKeep (i j : Nat) (xs ys : List Word) : List Word :=
  xs.filter (fun xv => hasSupport i j xv ys)

/-- The `revised` flag as the loop leaves it: it is overwritten on every
iteration, so its final value only reflects the last candidate iterated
(true if that one was removed for lack of support, false if it was
re-added; false when the loop never ran). -/
def reviseFlag (i j : Nat) (xs ys : List Word) : Bool :=
  match xs.getLast? with
  | none => false
  | some xv => !(hasSupport i j xv ys)

/-- `revise(x, y)`.  When the overlap lookup yields `None`, the code
evaluates `xvalue[overlap[0]]` and raises TypeError as soon as both loops
run, i.e. whenever both domains are nonempty; with `domains[y]` empty it
silently empties `domains[x]` instead. -/
def reviseM {V : Type} [DecidableEq V] (p : Puzzle V) (x y : V) (dom : Domains V) :
    Option (Domains V × Bool) :=
  match p.overlaps x y with
  | some (i, j) =>
      some (domSet dom x (reviseKeep i j (domGet dom x) (domGet dom y)),
            reviseFlag i j (domGet dom x) (domGet dom y))
  | none =>
      if domGet dom x = [] then some (dom, false)
      else if domGet dom y = [] then some (domSet dom x [], true)
      else none

/-- `create_arcs()` with no variable: every ordered pair
`(var, neighbor)`, deduplicated in construction order. -/
def createArcsAll {V : Type} [DecidableEq V] (p : Puzzle V) : List (V × V) :=
  p.vars.foldl
    (fun acc v =>
      (neighborsOf p v).foldl
        (fun acc2 n => if (v, n) ∈ acc2 then acc2 else acc2 ++ [(v, n)]) acc)
    []

/-- `create_arcs(var, assignment)`: the arcs `(neighbor, var)` for every
neighbor of `var` not already assigned. -/
def createArcsVar {V : Type} [DecidableEq V] (p : Puzzle V) (var : V) (assigned : List V) :
    List (V × V) :=
  ((neighborsOf p var).filter (fun n => decide (n ∉ assigned))).foldl
    (fun acc n => if (n, var) ∈ acc then acc else acc ++ [(n, var)]) []

/-- Requeueing step of `ac3`: for each neighbor `z` of `x` other than `y`,
append `(z, x)` unless already queued.  The queue is kept in pop order
(head = next `queue.pop()`), so a Python append is a cons here. -/
def enqueue {V : Type} [DecidableEq V] (p : Puzzle V) (x y : V) (q : List (V × V)) :
    List (V × V) :=
  ((neighborsOf p x).filter (fun z => decide (z ≠ y))).foldl
    (fun q' z => if (z, x) ∈ q' then q' else (z, x) :: q') q

/-- The `while queue` loop of `ac3`, with the queue in pop order. -/
def ac3go {V : Type} [DecidableEq V] (p : Puzzle V) :
    Nat → List (V × V) → Domains V → Res (Bool × Domains V)
  | 0, _, _ => Res.fuelOut
  | _ + 1, [], dom => Res.ok (true, dom)
  | fuel + 1, (x, y) :: rest, dom =>
      match reviseM p x y dom with
      | none => Res.crash
      | some (dom1, revised) =>
          if revised then
            if domGet dom1 x = [] then Res.ok (false, dom1)
            else ac3go p fuel (enqueue p x y rest) dom1
          else ac3go p fuel rest dom1

/-- `ac3(arcs)`: seed the queue with `create_arcs()` when no arcs are
given, else with the given list; `queue.pop()` takes the last element, so
the seed list is reversed into pop order. -/
def ac3 {V : Type} [DecidableEq V] (p : Puzzle V) (fuel : Nat)
    (arcs : Option (List (V × V))) (dom : Domains V) : Res (Bool × Domains V) :=
  ac3go p fuel ((match arcs with | none => createArcsAll p | some l => l).reverse) dom

/-- `assignment_complete`: the assignment has as many entries as the
puzzle has variables. -/
def assignmentComplete {V : Type} (p : Puzzle V) (asn : Assignment V) : Bool :=
  decide (asn.length = p.vars.length)

/-- `consistent`, first loop: no two distinct assigned variables hold the
same word. -/
def distinctOK {V : Type} [DecidableEq V] (asn : Assignment V) : Bool :=
  asn.all (fun e => asn.all (fun c => decide (c.1 = e.1) || decide (e.2 ≠ c.2)))

/-- `consistent`, second loop: every assigned word's length matches its
variable's length. -/
def lengthsOK {V : Type} (p : Puzzle V) (asn : Assignment V) : Bool :=
  asn.all (fun e => decide (e.2.length = p.length e.1))

/-- `consistent`, third loop: every pair of assigned neighbors agrees at
the overlap indices. -/
def overlapsOK {V : Type} [DecidableEq V] (p : Puzzle V) (asn : Assignment V) : Bool :=
  asn.all (fun e =>
    (neighborsOf p e.1).all (fun n =>
      match lookupA asn n with
      | none => true
      | some w2 =>
          match p.overlaps e.1 n with
          | some (i, j) => charAt e.2 i == charAt w2 j
          | none => true))

/-- `consistent(assignment)`. -/
def consistentB {V : Type} [DecidableEq V] (p : Puzzle V) (asn : Assignment V) : Bool :=
  distinctOK asn && lengthsOK p asn && overlapsOK p asn

/-- The count accumulated by `order_domain_values` for one candidate: over
each unassigned neighbor, the number of its domain values that disagree at
the overlap indices. -/
def ruleOut {V : Type} [DecidableEq V] (p : Puzzle V) (dom : Domains V) (var : V)
    (checkNbrs : List V) (value : Word) : Nat :=
  checkNbrs.foldl
    (fun c n =>
      match p.overlaps var n with
      | some (i, j) => c + (domGet dom n).countP (fun w => !(charAt value i == charAt w j))
      | none => c)
    0

/-- Stable insertion used to model Python's stable `list.sort(key=count)`. -/
def insertByCount (x : Word × Nat) : List (Word × Nat) → List (Word × Nat)
  | [] => [x]
  | y :: ys => if y.2 ≤ x.2 then y :: insertByCount x ys else x :: y :: ys

/-- Stable sort by count (extensionally the unique stable sort, hence the
same list Python's sort produces). -/
def stableSortByCount (l : List (Word × Nat)) : List (Word × Nat) :=
  l.foldl (fun acc x => insertByCount x acc) []

/-- `order_domain_values(var, assignment)`: candidates of `var` paired with
their rule-out counts (`values.pop()` walks the list back to front), then
stably sorted ascending by count. -/
def orderDomainValues {V : Type} [DecidableEq V] (p : Puzzle V) (dom : Domains V)
    (var : V) (asn : Assignment V) : List Word :=
  let nbrs := (neighborsOf p var).filter (fun n => decide (n ∉ keysOf asn))
  let helper := (domGet dom var).reverse.map (fun w => (w, ruleOut p dom var nbrs w))
  (stableSortByCount helper).map (fun e => e.1)

/-- Loop body of `select_unassigned_variable`: the accumulator holds the
`selected_variable` binding (None while still unbound) and `threshold`. -/
def selectStep {V : Type} [DecidableEq V] (p : Puzzle V) (assigned : List V)
    (acc : Option V × Nat) (v : V) : Option V × Nat :=
  if v ∈ assigned then acc
  else if (neighborsOf p v).length > acc.2 then (some v, (neighborsOf p v).length)
  else acc

/-- `select_unassigned_variable(assignment)`: scan all variables, keeping
the first unassigned one whose degree strictly exceeds the running
threshold (initially 0).  Domains are never consulted.  `none` models the
UnboundLocalError raised when no unassigned variable has positive
degree. -/
def selectUnassignedVariable {V : Type} [DecidableEq V] (p : Puzzle V)
    (assigned : List V) : Option V :=
  (p.vars.foldl (selectStep p assigned) (none, 0)).1

/-- The inference block inside `backtrack`'s candidate loop: build the arcs
`(neighbor, var)`; if any, snapshot the domains, force every assigned
variable's domain to the singleton of its assigned word, run `ac3` on the
arcs, and restore the snapshot only when `ac3` reports failure. -/
def inferStep {V : Type} [DecidableEq V] (p : Puzzle V) (fuel : Nat) (var : V)
    (asn' : Assignment V) (dom : Domains V) : Res (Domains V) :=
  if createArcsVar p var (keysOf asn') = [] then Res.ok dom
  else
    match ac3 p fuel (some (createArcsVar p var (keysOf asn')))
        (asn'.foldl (fun d e => domSet d e.1 [e.2]) dom) with
    | Res.ok (false, _) => Res.ok dom
    | Res.ok (true, d1) => Res.ok d1
    | Res.crash => Res.crash
    | Res.fuelOut => Res.fuelOut

/-- Result of a `backtrack` call: the returned value, the assignment dict
and domain store as the call leaves them, and the number of `backtrack`
invocations performed (the Python code has no counter; it is threaded here
purely to make "search was attempted" observable). -/
structure BTRes (V : Type) where
  result : Option (Assignment V)
  asn : Assignment V
  dom : Domains V
  calls : Nat
  deriving DecidableEq, Repr

/-- Control state of the embedded `backtrack`: either at the entry of a
call, or inside the candidate loop with the remaining ordered values. -/
inductive BTState (V : Type) where
  | call (dom : Domains V) (asn : Assignment V)
  | tryvals (var : V) (ws : List Word) (dom : Domains V) (asn : Assignment V)

/-- `backtrack(assignment)`.  A `tryvals` step mirrors one iteration of
`for value in orderedlist`: tentatively assign, check consistency, run the
inference block, recurse, and on failure pop the variable and continue
with whatever domain store the recursive call left behind. -/
def bt {V : Type} [DecidableEq V] (p : Puzzle V) : Nat → BTState V → Res (BTRes V)
  | 0, _ => Res.fuelOut
  | fuel + 1, BTState.call dom asn =>
      if assignmentComplete p asn then Res.ok ⟨some asn, asn, dom, 1⟩
      else
        match selectUnassignedVariable p (keysOf asn) with
        | none => Res.crash
        | some var =>
            match bt p fuel (BTState.tryvals var (orderDomainValues p dom var asn) dom asn) with
            | Res.ok r => Res.ok ⟨r.result, r.asn, r.dom, r.calls + 1⟩
            | Res.crash => Res.crash
            | Res.fuelOut => Res.fuelOut
  | _ + 1, BTState.tryvals _ [] dom asn => Res.ok ⟨none, asn, dom, 0⟩
  | fuel + 1, BTState.tryvals var (w :: ws) dom asn =>
      if consistentB p ((var, w) :: asn) then
        match inferStep p fuel var ((var, w) :: asn) dom with
        | Res.ok dom1 =>
            match bt p fuel (BTState.call dom1 ((var, w) :: asn)) with
            | Res.ok r =>
                match r.result with
                | some _ => Res.ok r
                | none =>
                    match bt p fuel (BTState.tryvals var ws r.dom (eraseKey var r.asn)) with
                    | Res.ok r2 => Res.ok ⟨r2.result, r2.asn, r2.dom, r.calls + r2.calls⟩
                    | Res.crash => Res.crash
                    | Res.fuelOut => Res.fuelOut
            | Res.crash => Res.crash
            | Res.fuelOut => Res.fuelOut
        | Res.crash => Res.crash
        | Res.fuelOut => Res.fuelOut
      else bt p fuel (BTState.tryvals var ws dom (eraseKey var ((var, w) :: asn)))

/-- `solve()`: enforce node consistency, run `ac3` (its Boolean result is
discarded, but its domain mutations persist), then run `backtrack` from
the empty assignment. -/
def solve {V : Type} [DecidableEq V] (p : Puzzle V) (fuel : Nat) : Res (BTRes V) :=
  match ac3 p fuel none (enforceNodeConsistency p (initialDomains p)) with
  | Res.ok (_, d1) => bt p fuel (BTState.call d1 [])
  | Res.crash => Res.crash
  | Res.fuelOut => Res.fuelOut

/-! ### Concrete instances (variables are labelled by natural numbers) -/

/-- A puzzle with a single slot and a word that fits it: e.g. one ACROSS
slot of length 3 and word list `{abc}`. -/
def P1 : Puzzle Nat :=
  { vars := [0], length := fun _ => 3, words := [['a','b','c']], overlaps := fun _ _ => none }

/-- Overlaps of a chain of three slots 0-1-2: slot 1 crosses both others. -/
def ovS : Nat → Nat → Option (Nat × Nat)
  | 0, 1 => some (0, 0)
  | 1, 0 => some (0, 0)
  | 1, 2 => some (1, 0)
  | 2, 1 => some (0, 1)
  | _, _ => none

/-- Chain puzzle: variable 1 has two neighbors, variables 0 and 2 one. -/
def PS : Puzzle Nat :=
  { vars := [0, 1, 2], length := fun _ => 2, words := [], overlaps := ovS }

/-- A domain store in which variable 0 has a single candidate left while
variable 1 still has three. -/
def DS : Domains Nat := [(0, [['a','b']]), (1, [['x'], ['y'], ['z']]), (2, [['q']])]

/-- Two crossing slots of length 2: slot 0 position 1 meets slot 1
position 0. -/
def ovB : Nat → Nat → Option (Nat × Nat)
  | 0, 1 => some (1, 0)
  | 1, 0 => some (0, 1)
  | _, _ => none

/-- Puzzle for the backtrack run: both candidate words start compatible at
the crossing, but the only completion repeats a word. -/
def PB : Puzzle Nat :=
  { vars := [0, 1], length := fun _ => 2, words := [['a','a'], ['b','a']], overlaps := ovB }

/-- Entry domain store for the backtrack run. -/
def dB : Domains Nat := [(0, [['a','a']]), (1, [['a','a'], ['b','a']])]

/-- Two slots crossing at position (0, 0). -/
def ovR : Nat → Nat → Option (Nat × Nat)
  | 0, 1 => some (0, 0)
  | 1, 0 => some (0, 0)
  | _, _ => none

/-- Puzzle for the revise runs: two crossing slots of length 2. -/
def PR : Puzzle Nat :=
  { vars := [0, 1], length := fun _ => 2, words := [], overlaps := ovR }

/-- Domain store in which slot 0's first candidate is unsupported and its
second is supported. -/
def dR : Domains Nat := [(0, [['a','b'], ['c','d']]), (1, [['c','a']])]

/-- Overlaps for the ac3 run: slot 0 crosses slot 1 at (0, 0) and slot 2
at (1, 0); slots 1 and 2 do not touch. -/
def ovA : Nat → Nat → Option (Nat × Nat)
  | 0, 1 => some (0, 0)
  | 1, 0 => some (0, 0)
  | 0, 2 => some (1, 0)
  | 2, 0 => some (0, 1)
  | _, _ => none

/-- Puzzle for the ac3 run. -/
def PA : Puzzle Nat :=
  { vars := [0, 1, 2], length := fun v => if v = 0 then 2 else 1, words := [], overlaps := ovA }

/-- Domain store for the ac3 run: the arc (0, 1) silently drops `ab`,
stranding slot 2's candidate `b` without support. -/
def dA : Domains Nat := [(0, [['a','b'], ['c','d']]), (1, [['c']]), (2, [['b'], ['d']])]

/-- Two parallel slots that never touch. -/
def PN : Puzzle Nat :=
  { vars := [0, 1], length := fun _ => 1, words := [], overlaps := fun _ _ => none }

/-- Both domains nonempty: `revise` on the non-overlapping pair raises. -/
def d6 : Domains Nat := [(0, [['a']]), (1, [])]

/-- Same store with the second domain nonempty instead. -/
def d6n : Domains Nat := [(0, [['a']]), (1, [['b']])]

/-- Two length-1 slots crossing at (0, 0) with incompatible letters. -/
def P7 : Puzzle Nat :=
  { vars := [0, 1], length := fun _ => 1, words := [], overlaps := ovR }

/-- Domain store whose propagation must fail. -/
def d7 : Domains Nat := [(0, [['a']]), (1, [['b']])]

/-- The domain store `ac3` leaves behind on `d7`. -/
def d7f : Domains Nat := [(0, [['a']]), (1, [])]

/-- The spec's unsatisfiable end-to-end fixture: two crossing slots of
length 3 (slot 0 position 1 meets slot 1 position 0) with word list
`{cat, dog}`: no compatible pairing exists. -/
def P8 : Puzzle Nat :=
  { vars := [0, 1], length := fun _ => 3, words := [['c','a','t'], ['d','o','g']], overlaps := ovB }

/-- The domain store after node consistency plus initial propagation on
`P8`: slot 1's domain is emptied. -/
def d8 : Domains Nat := [(0, [['c','a','t'], ['d','o','g']]), (1, [])]

/-- The full outcome of `solve` on `P8`: no solution, after three
`backtrack` invocations. -/
def r8 : BTRes Nat := ⟨none, [], [(0, [['c','a','t']]), (1, [])], 3⟩

/-! ### Dictionary lemmas -/

theorem domGet_domSet_ne {V : Type} [DecidableEq V] (d : Domains V) (x v : V)
    (l : List Word) (h : v ≠ x) : domGet (domSet d x l) v = domGet d v := by
  induction d with
  | nil => rfl
  | cons e d ih =>
      by_cases hex : e.1 = x
      · have : e.1 ≠ v := by rw [hex]; exact fun hc => h hc.symm
        simp [domSet, domGet, hex, this, ih, Ne.symm h]
      · by_cases hev : e.1 = v <;> simp [domSet, domGet, hex, hev, ih, h]

theorem domGet_domSet_self_or {V : Type} [DecidableEq V] (d : Domains V) (x : V)
    (l : List Word) :
    domGet (domSet d x l) x = l ∨ (domGet (domSet d x l) x = [] ∧ domGet d x = []) := by
  induction d with
  | nil => exact Or.inr ⟨rfl, rfl⟩
  | cons e d ih =>
      by_cases hex : e.1 = x
      · exact Or.inl (by simp [domSet, domGet, hex])
      · simpa [domSet, domGet, hex] using ih

/-! ### Lemmas about `reviseM` -/

theorem reviseM_frame {V : Type} [DecidableEq V] {p : Puzzle V} {x y : V}
    {dom dom1 : Domains V} {rev : Bool} (h : reviseM p x y dom = some (dom1, rev)) :
    ∀ v, v ≠ x → domGet dom1 v = domGet dom v := by
  intro v hv
  unfold reviseM at h
  split at h
  · simp only [Option.some.injEq, Prod.mk.injEq] at h
    rw [← h.1]
    exact domGet_domSet_ne _ _ _ _ hv
  · split at h
    · simp only [Option.some.injEq, Prod.mk.injEq] at h
      rw [← h.1]
    · split at h
      · simp only [Option.some.injEq, Prod.mk.injEq] at h
        rw [← h.1]
        exact domGet_domSet_ne _ _ _ _ hv
      · exact absurd h (by simp)

theorem reviseM_subset {V : Type} [DecidableEq V] {p : Puzzle V} {x y : V}
    {dom dom1 : Domains V} {rev : Bool} (h : reviseM p x y dom = some (dom1, rev)) :
    domGet dom1 x ⊆ domGet dom x := by
  unfold reviseM at h
  split at h
  · simp only [Option.some.injEq, Prod.mk.injEq] at h
    rw [← h.1]
    rcases domGet_domSet_self_or dom x (reviseKeep _ _ (domGet dom x) (domGet dom y)) with
      hc | hc
    · rw [hc]
      exact fun w hw => (List.mem_filter.1 hw).1
    · rw [hc.1]; intro w hw; cases hw
  · split at h
    · simp only [Option.some.injEq, Prod.mk.injEq] at h
      rw [← h.1]
      exact fun w hw => hw
    · split at h
      · simp only [Option.some.injEq, Prod.mk.injEq] at h
        rw [← h.1]
        rcases domGet_domSet_self_or dom x [] with hc | hc
        · rw [hc]; intro w hw; cases hw
        · rw [hc.1]; intro w hw; cases hw
      · exact absurd h (by simp)

theorem reviseM_true_nonempty {V : Type} [DecidableEq V] {p : Puzzle V} {x y : V}
    {dom dom1 : Domains V} (h : reviseM p x y dom = some (dom1, true)) :
    domGet dom x ≠ [] := by
  unfold reviseM at h
  split at h
  · simp only [Option.some.injEq, Prod.mk.injEq] at h
    intro hnil
    rw [hnil] at h
    simp [reviseFlag] at h
  · split at h
    · simp at h
    · split at h
      · assumption
      · exact absurd h (by simp)

theorem reviseM_false_preserve {V : Type} [DecidableEq V] {p : Puzzle V} {x y : V}
    {dom dom1 : Domains V} (h : reviseM p x y dom = some (dom1, false))
    (hne : domGet dom x ≠ []) : domGet dom1 x ≠ [] := by
  unfold reviseM at h
  split at h
  · simp only [Option.some.injEq, Prod.mk.injEq] at h
    have hflag := h.2
    unfold reviseFlag at hflag
    rw [List.getLast?_eq_getLast _ hne] at hflag
    simp only [Bool.not_eq_false'] at hflag
    have hmem : (domGet dom x).getLast hne ∈
        reviseKeep _ _ (domGet dom x) (domGet dom y) :=
      List.mem_filter.2 ⟨List.getLast_mem hne, hflag⟩
    rcases domGet_domSet_self_or dom x
        (reviseKeep _ _ (domGet dom x) (domGet dom y)) with hc | hc
    · rw [← h.1, hc]
      exact List.ne_nil_of_mem hmem
    · exact absurd hc.2 hne
  · split at h
    · simp only [Option.some.injEq, Prod.mk.injEq] at h
      rw [← h.1]
      exact hne
    · split at h
      · simp at h
      · exact absurd h (by simp)

theorem reviseM_subset_all {V : Type} [DecidableEq V] {p : Puzzle V} {x y : V}
    {dom dom1 : Domains V} {rev : Bool} (h : reviseM p x y dom = some (dom1, rev)) :
    ∀ v, domGet dom1 v ⊆ domGet dom v := by
  intro v
  by_cases hv : v = x
  · subst hv; exact reviseM_subset h
  · rw [reviseM_frame h v hv]
    exact fun w hw => hw

theorem nonempty_of_subset {α : Type} {l1 l2 : List α} (hs : l1 ⊆ l2) (h1 : l1 ≠ []) :
    l2 ≠ [] := by
  intro h2
  rw [h2] at hs
  exact h1 (List.subset_nil.1 hs)

/-! ### Lemmas about `ac3go` and `ac3` -/

theorem ac3go_subset {V : Type} [DecidableEq V] (p : Puzzle V) :
    ∀ (fuel : Nat) (q : List (V × V)) (dom : Domains V) (b : Bool) (d' : Domains V),
      ac3go p fuel q dom = Res.ok (b, d') → ∀ v, domGet d' v ⊆ domGet dom v := by
  intro fuel
  induction fuel with
  | zero => intro q dom b d' h; simp [ac3go] at h
  | succ fuel ih =>
      intro q dom b d' h v
      match q with
      | [] =>
          simp only [ac3go, Res.ok.injEq, Prod.mk.injEq] at h
          rw [← h.2]
          exact fun w hw => hw
      | (x, y) :: rest =>
          simp only [ac3go] at h
          cases hr : reviseM p x y dom with
          | none => rw [hr] at h; simp at h
          | some pr =>
              obtain ⟨dom1, rev⟩ := pr
              rw [hr] at h
              simp only at h
              cases rev with
              | false =>
                  simp only [Bool.false_eq_true, if_false] at h
                  exact fun w hw => reviseM_subset_all hr v (ih rest dom1 b d' h v hw)
              | true =>
                  simp only [if_true] at h
                  by_cases hd : domGet dom1 x = []
                  · rw [if_pos hd] at h
                    simp only [Res.ok.injEq, Prod.mk.injEq] at h
                    rw [← h.2]
                    exact reviseM_subset_all hr v
                  · rw [if_neg hd] at h
                    exact fun w hw =>
                      reviseM_subset_all hr v (ih _ dom1 b d' h v hw)

theorem ac3go_false_iff_emptied {V : Type} [DecidableEq V] (p : Puzzle V) :
    ∀ (fuel : Nat) (q : List (V × V)) (dom : Domains V) (b : Bool) (d' : Domains V),
      ac3go p fuel q dom = Res.ok (b, d') →
      ((b = true → ∀ v, domGet dom v ≠ [] → domGet d' v ≠ []) ∧
       (b = false → ∃ v, domGet dom v ≠ [] ∧ domGet d' v = [])) := by
  intro fuel
  induction fuel with
  | zero => intro q dom b d' h; simp [ac3go] at h
  | succ fuel ih =>
      intro q dom b d' h
      match q with
      | [] =>
          simp only [ac3go, Res.ok.injEq, Prod.mk.injEq] at h
          obtain ⟨hb, hd⟩ := h
          subst hb; subst hd
          exact ⟨fun _ v hv => hv, fun hf => by simp at hf⟩
      | (x, y) :: rest =>
          simp only [ac3go] at h
          cases hr : reviseM p x y dom with
          | none => rw [hr] at h; simp at h
          | some pr =>
              obtain ⟨dom1, rev⟩ := pr
              rw [hr] at h
              simp only at h
              cases rev with
              | false =>
                  simp only [Bool.false_eq_true, if_false] at h
                  have step : ∀ v, domGet dom v ≠ [] → domGet dom1 v ≠ [] := by
                    intro v hv
                    by_cases hvx : v = x
                    · subst hvx; exact reviseM_false_preserve hr hv
                    · rw [reviseM_frame hr v hvx]; exact hv
                  refine ⟨fun hb v hv => (ih rest dom1 b d' h).1 hb v (step v hv), ?_⟩
                  intro hb
                  obtain ⟨v, hv1, hv2⟩ := (ih rest dom1 b d' h).2 hb
                  exact ⟨v, nonempty_of_subset (reviseM_subset_all hr v) hv1, hv2⟩
              | true =>
                  simp only [if_true] at h
                  by_cases hd : domGet dom1 x = []
                  · rw [if_pos hd] at h
                    simp only [Res.ok.injEq, Prod.mk.injEq] at h
                    obtain ⟨hb, hdd⟩ := h
                    subst hb; subst hdd
                    refine ⟨fun hcon => by simp at hcon, fun _ => ?_⟩
                    exact ⟨x, reviseM_true_nonempty hr, hd⟩
                  · rw [if_neg hd] at h
                    have step : ∀ v, domGet dom v ≠ [] → domGet dom1 v ≠ [] := by
                      intro v hv
                      by_cases hvx : v = x
                      · subst hvx; exact hd
                      · rw [reviseM_frame hr v hvx]; exact hv
                    refine ⟨fun hb v hv => (ih _ dom1 b d' h).1 hb v (step v hv), ?_⟩
                    intro hb
                    obtain ⟨v, hv1, hv2⟩ := (ih _ dom1 b d' h).2 hb
                    exact ⟨v, nonempty_of_subset (reviseM_subset_all hr v) hv1, hv2⟩

theorem ac3_subset {V : Type} [DecidableEq V] (p : Puzzle V) (fuel : Nat)
    (arcs : Option (List (V × V))) (dom : Domains V) (b : Bool) (d' : Domains V)
    (h : ac3 p fuel arcs dom = Res.ok (b, d')) : ∀ v, domGet d' v ⊆ domGet dom v :=
  ac3go_subset p fuel _ dom b d' h

/-! ### Claim theorems -/

/-- C1.  `solve` does not always return an assignment or `None`: on the
(solvable) one-slot puzzle `P1` it raises UnboundLocalError inside
`select_unassigned_variable`, because the only unassigned variable has no
neighbors and the max-degree scan never binds `selected_variable`. -/
theorem C1_solve_crash_on_isolated_variable : solve P1 30 = Res.crash := by decide

/-- C2.  `select_unassigned_variable` neither implements
minimum-remaining-values nor is total: it never consults the domain store
(on `PS` with store `DS` it returns variable 1, which holds three
candidates, although variable 0 holds one), and on `P1` — where every
unassigned variable has zero neighbors — it is undefined (the modelled
UnboundLocalError). -/
theorem C2_select_by_degree_only_and_undefined :
    selectUnassignedVariable P1 [] = none ∧
    selectUnassignedVariable PS [] = some 1 ∧
    (domGet DS 0).length = 1 ∧ (domGet DS 1).length = 3 := by decide

/-- C3.  Abandoning a candidate does not restore the inference snapshot:
on `PB` from store `dB`, `backtrack` tries `aa` for variable 0, inference
succeeds and narrows variable 1's domain from `[aa, ba]` to `[aa]`, the
recursive call fails (the completion would repeat a word), and the
exhausted top-level call returns failure with variable 1's domain still
narrowed — the snapshot is restored only when `ac3` itself fails. -/
theorem C3_domains_not_restored_after_failed_candidate :
    bt PB 20 (BTState.call dB []) =
      Res.ok ⟨none, [], [(0, [['a','a']]), (1, [['a','a']])], 2⟩ ∧
    domGet dB 1 = [['a','a'], ['b','a']] := by decide

/-- C4.  `revise` does remove exactly the unsupported candidates, but its
return value is the status of the last candidate iterated, not "domain
changed": on `PR` with store `dR` it removes `ab` (unsupported) yet
returns `False` because the last candidate `cd` was re-added. -/
theorem C4_revise_returns_false_despite_change :
    reviseM PR 0 1 dR = some ([(0, [['c','d']]), (1, [['c','a']])], false) ∧
    domGet dR 0 = [['a','b'], ['c','d']] := by decide

/-- C5.  `ac3` seeded with every ordered overlapping pair can return
success without establishing arc consistency: on `PA` with store `dA` the
final revision of arc (0, 1) removes `ab` but reports no change (the bug
of C4), so arc (2, 0) — already processed — is never re-enqueued, and
`ac3` returns `True` while candidate `b` of variable 2 has no support
left in variable 0's domain `[cd]` at the overlap (0, 1). -/
theorem C5_ac3_success_without_arc_consistency :
    ac3 PA 9 none dA = Res.ok (true, [(0, [['c','d']]), (1, [['c']]), (2, [['b'], ['d']])]) ∧
    PA.overlaps 2 0 = some (0, 1) ∧
    hasSupport 0 1 ['b'] [['c','d']] = false := by decide

/-- C6.  `revise` on a non-overlapping pair is not a no-op returning
`False`: with both domains nonempty it raises TypeError (subscripting the
`None` overlap), and with `domains[y]` empty it empties `domains[x]` and
returns `True`. -/
theorem C6_revise_without_overlap_misbehaves :
    PN.overlaps 0 1 = none ∧
    reviseM PN 0 1 d6n = none ∧
    reviseM PN 0 1 d6 = some ([(0, []), (1, [])], true) ∧
    domGet d6 0 = [['a']] := ⟨by decide, by decide, by decide, by decide⟩

/-! ### Lemmas about assignments, selection and value ordering -/

theorem eraseKey_of_not_mem {V : Type} [DecidableEq V] {v : V} :
    ∀ {a : Assignment V}, v ∉ keysOf a → eraseKey v a = a
  | [], _ => rfl
  | e :: a, hv => by
      simp only [keysOf, List.map_cons, List.mem_cons, not_or] at hv
      simp only [eraseKey]
      rw [if_neg (fun hc => hv.1 hc.symm)]
      rw [eraseKey_of_not_mem hv.2]

theorem eraseKey_cons_self {V : Type} [DecidableEq V] {v : V} {w : Word}
    {a : Assignment V} (hv : v ∉ keysOf a) : eraseKey v ((v, w) :: a) = a := by
  simp only [eraseKey, if_pos]
  exact eraseKey_of_not_mem hv

theorem selectStep_fold_some {V : Type} [DecidableEq V] (p : Puzzle V)
    (assigned : List V) :
    ∀ (l : List V) (acc : Option V × Nat) (v : V),
      (l.foldl (selectStep p assigned) acc).1 = some v →
      acc.1 = some v ∨ (v ∈ l ∧ v ∉ assigned) := by
  intro l
  induction l with
  | nil => intro acc v h; exact Or.inl h
  | cons u l ih =>
      intro acc v h
      simp only [List.foldl_cons] at h
      rcases ih (selectStep p assigned acc u) v h with hc | hc
      · unfold selectStep at hc
        by_cases hu : u ∈ assigned
        · rw [if_pos hu] at hc
          exact Or.inl hc
        · rw [if_neg hu] at hc
          by_cases hlen : (neighborsOf p u).length > acc.2
          · rw [if_pos hlen] at hc
            simp only [Option.some.injEq] at hc
            exact Or.inr ⟨by rw [← hc]; exact List.mem_cons_self u l, by rw [← hc]; exact hu⟩
          · rw [if_neg hlen] at hc
            exact Or.inl hc
      · exact Or.inr ⟨List.mem_cons_of_mem u hc.1, hc.2⟩

theorem select_some_spec {V : Type} [DecidableEq V] {p : Puzzle V} {assigned : List V}
    {v : V} (h : selectUnassignedVariable p assigned = some v) :
    v ∈ p.vars ∧ v ∉ assigned := by
  rcases selectStep_fold_some p assigned p.vars (none, 0) v h with hc | hc
  · exact absurd hc (by simp)
  · exact hc

theorem orderDomainValues_nil {V : Type} [DecidableEq V] (p : Puzzle V)
    (dom : Domains V) (var : V) (asn : Assignment V) (h : domGet dom var = []) :
    orderDomainValues p dom var asn = [] := by
  simp [orderDomainValues, h, stableSortByCount]

theorem assignmentComplete_false {V : Type} [DecidableEq V] {p : Puzzle V}
    {asn : Assignment V} {X : V} (hX : X ∈ p.vars) (hXa : X ∉ keysOf asn)
    (hknd : (keysOf asn).Nodup) (hsub : ∀ k ∈ keysOf asn, k ∈ p.vars) :
    assignmentComplete p asn = false := by
  have hcons : (X :: keysOf asn).Nodup := List.nodup_cons.2 ⟨hXa, hknd⟩
  have hcsub : (X :: keysOf asn) ⊆ p.vars := by
    intro k hk
    rcases List.mem_cons.1 hk with hk | hk
    · rw [hk]; exact hX
    · exact hsub k hk
  have hle := (hcons.subperm hcsub).length_le
  simp only [List.length_cons] at hle
  have hkl : (keysOf asn).length = asn.length := List.length_map _ _
  have hne : asn.length ≠ p.vars.length := by omega
  simp [assignmentComplete, hne]

/-! ### Backtracking: failure restores the assignment -/

theorem bt_none_restores {V : Type} [DecidableEq V] (p : Puzzle V) :
    ∀ fuel : Nat,
      (∀ dom asn r, bt p fuel (BTState.call dom asn) = Res.ok r → r.result = none →
        r.asn = asn) ∧
      (∀ var ws dom asn r, var ∉ keysOf asn →
        bt p fuel (BTState.tryvals var ws dom asn) = Res.ok r → r.result = none →
        r.asn = asn) := by
  intro fuel
  induction fuel with
  | zero =>
      refine ⟨fun dom asn r h => ?_, fun var ws dom asn r hv h => ?_⟩ <;> simp [bt] at h
  | succ fuel ih =>
      constructor
      · intro dom asn r h hres
        simp only [bt] at h
        cases hc : assignmentComplete p asn with
        | true =>
            rw [hc] at h
            simp only [if_true] at h
            simp only [Res.ok.injEq] at h
            rw [← h] at hres
            simp at hres
        | false =>
            rw [hc] at h
            simp only [Bool.false_eq_true, if_false] at h
            cases hsel : selectUnassignedVariable p (keysOf asn) with
            | none => rw [hsel] at h; simp at h
            | some var =>
                rw [hsel] at h
                simp only at h
                cases hbt : bt p fuel
                    (BTState.tryvals var (orderDomainValues p dom var asn) dom asn) with
                | ok r1 =>
                    rw [hbt] at h
                    simp only [Res.ok.injEq] at h
                    rw [← h] at hres ⊢
                    exact ih.2 var _ dom asn r1 (select_some_spec hsel).2 hbt hres
                | crash => rw [hbt] at h; simp at h
                | fuelOut => rw [hbt] at h; simp at h
      · intro var ws dom asn r hvar h hres
        cases ws with
        | nil =>
            simp only [bt, Res.ok.injEq] at h
            rw [← h]
        | cons w ws =>
            simp only [bt] at h
            cases hcons : consistentB p ((var, w) :: asn) with
            | false =>
                rw [hcons] at h
                simp only [Bool.false_eq_true, if_false] at h
                rw [eraseKey_cons_self hvar] at h
                exact ih.2 var ws dom asn r hvar h hres
            | true =>
                rw [hcons] at h
                simp only [if_true] at h
                cases hinf : inferStep p fuel var ((var, w) :: asn) dom with
                | ok dom1 =>
                    rw [hinf] at h
                    simp only at h
                    cases hcall : bt p fuel (BTState.call dom1 ((var, w) :: asn)) with
                    | ok r1 =>
                        rw [hcall] at h
                        simp only at h
                        cases hr1 : r1.result with
                        | some a =>
                            rw [hr1] at h
                            simp only [Res.ok.injEq] at h
                            rw [← h] at hres
                            rw [hres] at hr1
                            simp at hr1
                        | none =>
                            rw [hr1] at h
                            simp only at h
                            have hasn1 : r1.asn = (var, w) :: asn :=
                              ih.1 dom1 ((var, w) :: asn) r1 hcall hr1
                            rw [hasn1, eraseKey_cons_self hvar] at h
                            cases hcont : bt p fuel (BTState.tryvals var ws r1.dom asn) with
                            | ok r2 =>
                                rw [hcont] at h
                                simp only [Res.ok.injEq] at h
                                rw [← h] at hres ⊢
                                exact ih.2 var ws r1.dom asn r2 hvar hcont hres
                            | crash => rw [hcont] at h; simp at h
                            | fuelOut => rw [hcont] at h; simp at h
                    | crash => rw [hcall] at h; simp at h
                    | fuelOut => rw [hcall] at h; simp at h
                | crash => rw [hinf] at h; simp at h
                | fuelOut => rw [hinf] at h; simp at h

/-! ### Backtracking: an empty domain blocks every solution -/

theorem foldl_domSet_not_mem {V : Type} [DecidableEq V] {X : V} :
    ∀ (l : Assignment V) (dom : Domains V), X ∉ keysOf l →
      domGet (l.foldl (fun d e => domSet d e.1 [e.2]) dom) X = domGet dom X
  | [], _, _ => rfl
  | e :: l, dom, hX => by
      simp only [keysOf, List.map_cons, List.mem_cons, not_or] at hX
      simp only [List.foldl_cons]
      have h1 := foldl_domSet_not_mem l (domSet dom e.1 [e.2]) hX.2
      rw [h1]
      exact domGet_domSet_ne dom e.1 X [e.2] hX.1

theorem inferStep_preserves_empty {V : Type} [DecidableEq V] {p : Puzzle V}
    {fuel : Nat} {var X : V} {asn' : Assignment V} {dom dom1 : Domains V}
    (hX : X ∉ keysOf asn') (hd : domGet dom X = [])
    (h : inferStep p fuel var asn' dom = Res.ok dom1) : domGet dom1 X = [] := by
  unfold inferStep at h
  split at h
  · simp only [Res.ok.injEq] at h
    rw [← h]
    exact hd
  · split at h
    · simp only [Res.ok.injEq] at h
      rw [← h]
      exact hd
    case _ d1 heq =>
      simp only [Res.ok.injEq] at h
      rw [← h]
      have hsubs := ac3_subset p fuel _ _ true d1 heq X
      rw [foldl_domSet_not_mem asn' dom hX] at hsubs
      rw [hd] at hsubs
      exact List.subset_nil.1 hsubs
    · simp at h
    · simp at h

theorem bt_call_calls_pos {V : Type} [DecidableEq V] (p : Puzzle V) (fuel : Nat)
    (dom : Domains V) (asn : Assignment V) (r : BTRes V)
    (h : bt p fuel (BTState.call dom asn) = Res.ok r) : 1 ≤ r.calls := by
  cases fuel with
  | zero => simp [bt] at h
  | succ fuel =>
      simp only [bt] at h
      cases hc : assignmentComplete p asn with
      | true =>
          rw [hc] at h
          simp only [if_true, Res.ok.injEq] at h
          rw [← h]
      | false =>
          rw [hc] at h
          simp only [Bool.false_eq_true, if_false] at h
          cases hsel : selectUnassignedVariable p (keysOf asn) with
          | none => rw [hsel] at h; simp at h
          | some var =>
              rw [hsel] at h
              simp only at h
              cases hbt : bt p fuel
                  (BTState.tryvals var (orderDomainValues p dom var asn) dom asn) with
              | ok r1 =>
                  rw [hbt] at h
                  simp only [Res.ok.injEq] at h
                  rw [← h]
                  simp
              | crash => rw [hbt] at h; simp at h
              | fuelOut => rw [hbt] at h; simp at h

theorem bt_empty_domain_no_solution {V : Type} [DecidableEq V] (p : Puzzle V) (X : V)
    (hX : X ∈ p.vars) :
    ∀ fuel : Nat,
      (∀ dom asn r, domGet dom X = [] → X ∉ keysOf asn → (keysOf asn).Nodup →
        (∀ k ∈ keysOf asn, k ∈ p.vars) →
        bt p fuel (BTState.call dom asn) = Res.ok r →
        r.result = none ∧ domGet r.dom X = []) ∧
      (∀ var ws dom asn r, domGet dom X = [] → X ∉ keysOf asn → (keysOf asn).Nodup →
        (∀ k ∈ keysOf asn, k ∈ p.vars) → var ∈ p.vars → var ∉ keysOf asn →
        (var = X → ws = []) →
        bt p fuel (BTState.tryvals var ws dom asn) = Res.ok r →
        r.result = none ∧ domGet r.dom X = []) := by
  intro fuel
  induction fuel with
  | zero =>
      refine ⟨fun dom asn r _ _ _ _ h => ?_,
        fun var ws dom asn r _ _ _ _ _ _ _ h => ?_⟩ <;> simp [bt] at h
  | succ fuel ih =>
      constructor
      · intro dom asn r hdX hXa hknd hsub h
        simp only [bt] at h
        rw [assignmentComplete_false hX hXa hknd hsub] at h
        simp only [Bool.false_eq_true, if_false] at h
        cases hsel : selectUnassignedVariable p (keysOf asn) with
        | none => rw [hsel] at h; simp at h
        | some var =>
            rw [hsel] at h
            simp only at h
            cases hbt : bt p fuel
                (BTState.tryvals var (orderDomainValues p dom var asn) dom asn) with
            | ok r1 =>
                rw [hbt] at h
                simp only [Res.ok.injEq] at h
                obtain ⟨hv1, hv2⟩ := select_some_spec hsel
                have hws : var = X → orderDomainValues p dom var asn = [] := by
                  intro hvx
                  subst hvx
                  exact orderDomainValues_nil p dom var asn hdX
                have hmain := ih.2 var _ dom asn r1 hdX hXa hknd hsub hv1 hv2 hws hbt
                rw [← h]
                exact ⟨hmain.1, hmain.2⟩
            | crash => rw [hbt] at h; simp at h
            | fuelOut => rw [hbt] at h; simp at h
      · intro var ws dom asn r hdX hXa hknd hsub hvin hvna hwsX h
        cases ws with
        | nil =>
            simp only [bt, Res.ok.injEq] at h
            rw [← h]
            exact ⟨rfl, hdX⟩
        | cons w ws =>
            have hvarX : var ≠ X := fun hvx => absurd (hwsX hvx) (by simp)
            have hXa' : X ∉ keysOf ((var, w) :: asn) := by
              simp only [keysOf, List.map_cons, List.mem_cons, not_or]
              exact ⟨fun hc => hvarX hc.symm, hXa⟩
            simp only [bt] at h
            cases hcons : consistentB p ((var, w) :: asn) with
            | false =>
                rw [hcons] at h
                simp only [Bool.false_eq_true, if_false] at h
                rw [eraseKey_cons_self hvna] at h
                exact ih.2 var ws dom asn r hdX hXa hknd hsub hvin hvna
                  (fun hvx => absurd hvx hvarX) h
            | true =>
                rw [hcons] at h
                simp only [if_true] at h
                cases hinf : inferStep p fuel var ((var, w) :: asn) dom with
                | ok dom1 =>
                    rw [hinf] at h
                    simp only at h
                    have hd1 : domGet dom1 X = [] :=
                      inferStep_preserves_empty hXa' hdX hinf
                    have hknd' : (keysOf ((var, w) :: asn)).Nodup := by
                      simp only [keysOf, List.map_cons]
                      exact List.nodup_cons.2 ⟨by simpa [keysOf] using hvna, hknd⟩
                    have hsub' : ∀ k ∈ keysOf ((var, w) :: asn), k ∈ p.vars := by
                      intro k hk
                      simp only [keysOf, List.map_cons, List.mem_cons] at hk
                      rcases hk with hk | hk
                      · rw [hk]; exact hvin
                      · exact hsub k hk
                    cases hcall : bt p fuel (BTState.call dom1 ((var, w) :: asn)) with
                    | ok r1 =>
                        rw [hcall] at h
                        simp only at h
                        have hres1 := ih.1 dom1 ((var, w) :: asn) r1 hd1 hXa' hknd' hsub' hcall
                        cases hr1 : r1.result with
                        | some a =>
                            rw [hr1] at hres1
                            exact absurd hres1.1 (by simp)
                        | none =>
                            rw [hr1] at h
                            simp only at h
                            have hasn1 : r1.asn = (var, w) :: asn :=
                              (bt_none_restores p fuel).1 dom1 ((var, w) :: asn) r1 hcall hr1
                            rw [hasn1, eraseKey_cons_self hvna] at h
                            cases hcont : bt p fuel (BTState.tryvals var ws r1.dom asn) with
                            | ok r2 =>
                                rw [hcont] at h
                                simp only [Res.ok.injEq] at h
                                have hres2 := ih.2 var ws r1.dom asn r2 hres1.2 hXa hknd
                                  hsub hvin hvna (fun hvx => absurd hvx hvarX) hcont
                                rw [← h]
                                exact ⟨hres2.1, hres2.2⟩
                            | crash => rw [hcont] at h; simp at h
                            | fuelOut => rw [hcont] at h; simp at h
                    | crash => rw [hcall] at h; simp at h
                    | fuelOut => rw [hcall] at h; simp at h
                | crash => rw [hinf] at h; simp at h
                | fuelOut => rw [hinf] at h; simp at h

/-- C7.  `ac3` (however seeded) reports failure exactly when a revision it
performed emptied a domain: a `False` return leaves some variable whose
domain was nonempty on entry empty on exit, and a `True` return empties no
domain (domains only shrink, and every revision that empties a nonempty
domain sets the `revised` flag and is caught at once). -/
theorem C7_ac3_failure_iff_domain_emptied {V : Type} [DecidableEq V] (p : Puzzle V)
    (fuel : Nat) (arcs : Option (List (V × V))) (dom : Domains V) (b : Bool)
    (d' : Domains V) (h : ac3 p fuel arcs dom = Res.ok (b, d')) :
    b = false ↔ ∃ v, domGet dom v ≠ [] ∧ domGet d' v = [] := by
  have hmain := ac3go_false_iff_emptied p fuel _ dom b d' h
  constructor
  · exact hmain.2
  · rintro ⟨v, hv1, hv2⟩
    by_contra hb
    have hbt : b = true := by
      cases b
      · exact absurd rfl hb
      · rfl
    exact (hmain.1 hbt v hv1) hv2

/-- C7, witness: on the two-slot store `d7` the propagation fails, and the
theorem instantiates to the emptied variable 1. -/
theorem C7_witness : false = false ↔ ∃ v : Nat, domGet d7 v ≠ [] ∧ domGet d7f v = [] :=
  C7_ac3_failure_iff_domain_emptied P7 5 none d7 false d7f (by decide)

/-- C10.  For overlapping variables, `revise(x, y)` only ever rewrites
`domains[x]`, and rewrites it to a sublist of its entry value: every other
variable's domain is untouched and no candidate is ever added. -/
theorem C10_revise_mutates_only_x {V : Type} [DecidableEq V] (p : Puzzle V) (x y : V)
    (i j : Nat) (_hov : p.overlaps x y = some (i, j)) (dom dom1 : Domains V) (rev : Bool)
    (h : reviseM p x y dom = some (dom1, rev)) :
    (∀ v, v ≠ x → domGet dom1 v = domGet dom v) ∧ domGet dom1 x ⊆ domGet dom x :=
  ⟨reviseM_frame h, reviseM_subset h⟩

/-- C10, witness: the frame property instantiated on the concrete revise
run of C4 — variable 1 untouched, variable 0 shrunk. -/
theorem C10_witness :
    domGet [(0, [['c','d']]), (1, [['c','a']])] 1 = domGet dR 1 ∧
    domGet [(0, [['c','d']]), (1, [['c','a']])] 0 ⊆ domGet dR 0 := by
  have h := C10_revise_mutates_only_x PR 0 1 0 0 (by decide) dR
    [(0, [['c','d']]), (1, [['c','a']])] false (by decide)
  exact ⟨h.1 1 (by decide), h.2⟩

/-- C8, counterexample.  On the spec's unsatisfiable fixture `P8` the
initial propagation empties variable 1's domain (and returns failure),
yet `solve` still performs backtracking search: it discards `ac3`'s
result and invokes `backtrack`, which runs three times before failure —
not zero times as "without attempting search" requires. -/
theorem C8_search_attempted_despite_empty_domain :
    ac3 P8 20 none (enforceNodeConsistency P8 (initialDomains P8)) = Res.ok (false, d8) ∧
    domGet d8 1 = [] ∧
    solve P8 20 = Res.ok r8 ∧
    r8.calls = 3 := by decide

/-- C8, amended.  When the initial propagation (node consistency followed
by `ac3`) leaves some variable's domain empty, `solve` still invokes the
backtracking search — the Boolean result of `ac3` is discarded — but
whenever that search completes it returns no solution: the emptied
variable can never be assigned, so no assignment ever becomes complete. -/
theorem C8_empty_domain_solve_none {V : Type} [DecidableEq V] (p : Puzzle V) (X : V)
    (fuel : Nat) (hX : X ∈ p.vars) (b : Bool) (d1 : Domains V)
    (hprop : ac3 p fuel none (enforceNodeConsistency p (initialDomains p)) = Res.ok (b, d1))
    (hempty : domGet d1 X = []) (r : BTRes V) (hs : solve p fuel = Res.ok r) :
    r.result = none ∧ 1 ≤ r.calls := by
  unfold solve at hs
  rw [hprop] at hs
  have hmain := (bt_empty_domain_no_solution p X hX fuel).1 d1 [] r hempty
    (by simp [keysOf]) (by simp [keysOf]) (by simp [keysOf]) hs
  exact ⟨hmain.1, bt_call_calls_pos p fuel d1 [] r hs⟩

/-- C8, witness for the amended theorem: instantiated on the unsatisfiable
fixture `P8`, whose initial propagation empties variable 1's domain. -/
theorem C8_amended_witness : r8.result = none ∧ 1 ≤ r8.calls :=
  C8_empty_domain_solve_none P8 1 20 (by decide) false d8 (by decide) (by decide)
    r8 (by decide)

/-- C9.  Whenever `backtrack` returns failure, the assignment dict is back
to its entry state: every tentatively set variable was popped again, on
the inconsistent path, the failed-inference path and the failed-recursion
path alike. -/
theorem C9_backtrack_failure_preserves_assignment {V : Type} [DecidableEq V]
    (p : Puzzle V) (fuel : Nat) (dom : Domains V) (asn : Assignment V) (r : BTRes V)
    (h : bt p fuel (BTState.call dom asn) = Res.ok r) (hres : r.result = none) :
    r.asn = asn :=
  (bt_none_restores p fuel).1 dom asn r h hres

/-- C9, witness: the failing backtrack run on `PB` hands back the empty
assignment it started from. -/
theorem C9_witness :
    (⟨none, [], [(0, [['a','a']]), (1, [['a','a']])], 2⟩ : BTRes Nat).asn = [] :=
  C9_backtrack_failure_preserves_assignment PB 20 dB []
    ⟨none, [], [(0, [['a','a']]), (1, [['a','a']])], 2⟩ (by decide) rfl

end CW
